import Mathlib

/-!
A shallow embedding of the relearn reinforcement-learning library
(`src/relearn.hpp`) and proofs about its policy store and its two
episode-update algorithms.

Modelling conventions:
* `value_type = double` is modelled as `ℚ`.  The only NaN the library
  produces is the quiet-NaN sentinel returned by `policy::best_value`
  on a state with no recorded actions; it is modelled as `Option ℚ`
  with `none` for the sentinel.  The subsequent `std::isnan` check in
  both learners becomes the `nanZero` function.
* `std::unordered_map` is modelled as an association list with unique
  keys.  `operator[]` inserts a value-initialised entry when the key
  is absent; the functions below reproduce that side effect, so every
  policy operation returns both its result and the map after the call.
* `relearn::state` compares and hashes by its trait alone (the reward
  is excluded from `operator==` and `hash`), so a map keyed by states
  is keyed by the state trait; the stored key reward is never read.
* `relearn::action` wraps a trait and compares/hashes by it, so an
  action is represented by its trait value directly.
-/

namespace relearn

/-- A `relearn::state`: a reward and the describing trait. -/
structure St (σ : Type) where
  reward : ℚ
  trait : σ
deriving Repr

/-- A `relearn::link`: one step of an episode, a state/action pair. -/
structure Lnk (σ α : Type) where
  state : St σ
  action : α
deriving Repr

variable {κ β : Type}

/-- Lookup of the first entry with the given key in an association list
(the unique entry, for lists modelling an `unordered_map`). -/
def lookupK [DecidableEq κ] : List (κ × β) → κ → Option β
  | [], _ => none
  | (k, v) :: t, a => if k = a then some v else lookupK t a

/-- Map read with a default: the stored value, or `d` when absent. -/
def getK [DecidableEq κ] (m : List (κ × β)) (a : κ) (d : β) : β :=
  (lookupK m a).getD d

/-- `m[a] = b`: replace the entry for key `a`, appending it when absent
(an `unordered_map` keeps existing keys in place and inserts new ones). -/
def setK [DecidableEq κ] : List (κ × β) → κ → β → List (κ × β)
  | [], a, b => [(a, b)]
  | (k, v) :: t, a, b => if k = a then (k, b) :: t else (k, v) :: setK t a b

/-- The insertion side effect of a read through `operator[]`: when the key
is absent, a value-initialised entry `d` is appended. -/
def insK [DecidableEq κ] : List (κ × β) → κ → β → List (κ × β)
  | [], a, d => [(a, d)]
  | (k, v) :: t, a, d => if k = a then (k, v) :: t else (k, v) :: insK t a d

variable {σ α : Type} [DecidableEq σ] [DecidableEq α]

/-- The inner map of the policy store: `action → value`
(`policy::action_map`). -/
abbrev AMap (α : Type) := List (α × ℚ)

/-- The policy store contents: `state → action → value`
(`policy::__policies__`), keyed by the state trait. -/
abbrev PMap (σ α : Type) := List (σ × AMap α)

namespace policy

/-- `policy::actions`: `return __policies__[s_t];` — yields the inner map
(empty when the state is unknown); `operator[]` inserts the state with an
empty action map when absent. -/
def actions (pm : PMap σ α) (s : St σ) : AMap α × PMap σ α :=
  (getK pm s.trait [], insK pm s.trait [])

/-- `policy::update`: `__policies__[s_t][a_t] = q;`. -/
def update (pm : PMap σ α) (s : St σ) (a : α) (q : ℚ) : PMap σ α :=
  setK pm s.trait (setK (getK pm s.trait []) a q)

/-- `policy::value`: `return __policies__[s_t][a_t];` — returns the stored
value or the value-initialised 0; both `operator[]` applications insert
their key when absent, so the read leaves a `(a, 0)` entry behind. -/
def value (pm : PMap σ α) (s : St σ) (a : α) : ℚ × PMap σ α :=
  (getK (getK pm s.trait []) a 0,
   setK (insK pm s.trait []) s.trait (insK (getK pm s.trait []) a 0))

/-- `std::max_element` over the action map with `lhs.second < rhs.second`:
the first entry whose value is not exceeded by any later entry, `none` on
an empty range. -/
def maxElem : AMap α → Option (α × ℚ)
  | [] => none
  | x :: t => some (t.foldl (fun acc y => if acc.2 < y.2 then y else acc) x)

/-- `policy::best_value`: the value of the max element of
`__policies__[s_t]`, or the quiet-NaN sentinel (`none`) on an empty map;
`operator[]` inserts the state when absent. -/
def best_value (pm : PMap σ α) (s : St σ) : Option ℚ × PMap σ α :=
  ((maxElem (getK pm s.trait [])).map Prod.snd, insK pm s.trait [])

/-- `policy::best_action`: the action of the max element, or `nullptr`
(`none`) on an empty map. -/
def best_action (pm : PMap σ α) (s : St σ) : Option α × PMap σ α :=
  ((maxElem (getK pm s.trait [])).map Prod.fst, insK pm s.trait [])

/-- `policy::best`: the pair of the two, or `(nullptr, NaN)` — modelled
`(none, none)` — on an empty map. -/
def best (pm : PMap σ α) (s : St σ) : (Option α × Option ℚ) × PMap σ α :=
  (match maxElem (getK pm s.trait []) with
   | some (a, v) => (some a, some v)
   | none => (none, none),
   insK pm s.trait [])

/-- `policy::operator+=`.  The branch compiled without
`USING_BOOST_SERIALIZATION` writes `__policies__[s_t][a_t] = a_t.second`
with `s_t` and `a_t` the loop pairs themselves rather than their `.first`
members, and is ill-formed when instantiated (see the class test, which
does instantiate it).  Modelled from the `USING_BOOST_SERIALIZATION`
branch, which matches the declared semantics: every entry of `arg`
overwrites the corresponding entry of `this`. -/
def merge (pm arg : PMap σ α) : PMap σ α :=
  arg.foldl
    (fun acc st =>
      st.2.foldl (fun acc2 av => setK acc2 st.1 (setK (getK acc2 st.1 []) av.1 av.2)) acc)
    pm

end policy

/-- `if (std::isnan(q_next)) q_next = 0.;` — the no-knowledge sentinel is
replaced by 0 before entering the update formula. -/
def nanZero : Option ℚ → ℚ
  | none => 0
  | some q => q

/-- The parameters of the deterministic `q_learning` algorithm. -/
structure q_learning where
  alpha : ℚ := 9/10
  gamma : ℚ := 9/10

namespace q_learning

/-- One iteration of `q_learning::operator()`: the call
`q_value(episode, i, policy_map)` followed by `policy_map.update` on the
returned triplet.  `q_value` branches on `index < episode.size() - 1`,
which under the loop precondition `index < size` distinguishes a step
with a successor link from the terminal one; the body reads
`policy_map.value` and then `policy_map.best_value`, both of whose
`operator[]` insertions persist in the store.  The reward `r` is
`step.state.reward()` of the current link.  The `(none, _)` case is
unreachable from the loop. -/
def stepAt (ql : q_learning) (ep : List (Lnk σ α)) (i : ℕ) (pm : PMap σ α) :
    PMap σ α :=
  match ep.get? i, ep.get? (i + 1) with
  | some step, some next =>
    let qpm := policy.value pm step.state step.action
    let qnpm := policy.best_value qpm.2 next.state
    let r := step.state.reward
    let q_next := nanZero qnpm.1
    policy.update qnpm.2 step.state step.action
      (qpm.1 + ql.alpha * (r + (ql.gamma * q_next) - qpm.1))
  | some step, none =>
    policy.update pm step.state step.action step.state.reward
  | none, _ => pm

/-- The first `k` iterations of the `for (i = 0; i < episode.size(); i++)`
loop of `q_learning::operator()`. -/
def runSteps (ql : q_learning) (ep : List (Lnk σ α)) (k : ℕ) (pm : PMap σ α) :
    PMap σ α :=
  (List.range k).foldl (fun acc i => stepAt ql ep i acc) pm

/-- `q_learning::operator()`: the full loop over the episode. -/
def run (ql : q_learning) (ep : List (Lnk σ α)) (pm : PMap σ α) : PMap σ α :=
  runSteps ql ep ep.length pm

end q_learning

/-- The transition-frequency memory of `q_probabilistic`
(`__memory__ : state → action → state → count`), keyed by traits. -/
abbrev MMap (σ α : Type) := List (σ × List (α × List (σ × ℕ)))

namespace q_probabilistic

/-- One iteration of the first loop of `q_probabilistic::operator()`:
`__memory__[e[i].state][e[i].action][e[i+1].state] =+ 1;` guarded by
`if (i == episode.size() - 1) continue;`.  Note the source writes `=+ 1`
(assignment of `+1`), not `+= 1`: the count is set to 1, it is not
incremented. -/
def freqAt (ep : List (Lnk σ α)) (mem : MMap σ α) (i : ℕ) : MMap σ α :=
  match ep.get? i, ep.get? (i + 1) with
  | some step, some next =>
    let t := getK mem step.state.trait []
    let f := getK t step.action []
    setK mem step.state.trait (setK t step.action (setK f next.state.trait 1))
  | _, _ => mem

/-- The first loop of `q_probabilistic::operator()` over the episode. -/
def freqRun (ep : List (Lnk σ α)) (mem : MMap σ α) : MMap σ α :=
  (List.range ep.length).foldl (freqAt ep) mem

/-- One iteration of the second loop of `q_probabilistic::operator()`:
`q_value(episode, i, policy_map)` followed by `policy_map.update`.
The branch with a successor reads `best_value` of the next state (whose
`operator[]` insertion persists), takes `r` from the current state, and
computes `prob = __memory__[s][a][s_next] / __memory__[s][a].size()`.
Both operands are `std::size_t`, so the division is integer division;
the numerator `operator[]` chain inserts missing entries (count 0) into
the memory before the size is taken.  The stored value is
`prob * r + gamma * (q_next * prob)`, with no contribution from the old
value. -/
def stepAt (gamma : ℚ) (ep : List (Lnk σ α)) (i : ℕ)
    (st : PMap σ α × MMap σ α) : PMap σ α × MMap σ α :=
  match ep.get? i, ep.get? (i + 1) with
  | some step, some next =>
    let qnpm := policy.best_value st.1 next.state
    let r := step.state.reward
    let q_next := nanZero qnpm.1
    let t := getK st.2 step.state.trait []
    let f := getK t step.action []
    let f2 := insK f next.state.trait 0
    let mem2 := setK st.2 step.state.trait (setK t step.action f2)
    let num := getK f2 next.state.trait 0
    let den := f2.length
    let prob : ℚ := ((num / den : ℕ) : ℚ)
    let r_expected := prob * r
    (policy.update qnpm.2 step.state step.action
      (r_expected + (gamma * (q_next * prob))), mem2)
  | some step, none =>
    (policy.update st.1 step.state step.action step.state.reward, st.2)
  | none, _ => st

/-- `q_probabilistic::operator()`: the frequency loop followed by the
update loop.  The memory member is threaded explicitly. -/
def run (gamma : ℚ) (ep : List (Lnk σ α)) (pm : PMap σ α) (mem : MMap σ α) :
    PMap σ α × MMap σ α :=
  (List.range ep.length).foldl (fun st i => stepAt gamma ep i st)
    (pm, freqRun ep mem)

end q_probabilistic

/-- The observable value of a (state-trait, action) pair of the store:
what `policy::value` returns for it (0 when the pair is absent). -/
def readQ (pm : PMap σ α) (k : σ) (b : α) : ℚ :=
  getK (getK pm k []) b 0

end relearn

namespace relearn

variable {κ β : Type} {σ α : Type} [DecidableEq σ] [DecidableEq α]

theorem value_fst (pm : PMap σ α) (s : St σ) (a : α) :
    (policy.value pm s a).1 = readQ pm s.trait a := rfl

theorem lookupK_setK_self [DecidableEq κ] (m : List (κ × β)) (k : κ) (b : β) :
    lookupK (setK m k b) k = some b := by
  induction m with
  | nil => simp [setK, lookupK]
  | cons p t ih =>
    obtain ⟨k0, v⟩ := p
    by_cases h : k0 = k <;> simp [setK, lookupK, h, ih]

theorem lookupK_setK_of_ne [DecidableEq κ] (m : List (κ × β)) {k q : κ} (b : β)
    (h : q ≠ k) : lookupK (setK m k b) q = lookupK m q := by
  induction m with
  | nil => simp [setK, lookupK, Ne.symm h]
  | cons p t ih =>
    obtain ⟨k0, v⟩ := p
    by_cases h0 : k0 = k <;> by_cases h1 : k0 = q <;>
      simp_all [setK, lookupK]

theorem lookupK_insK_self [DecidableEq κ] (m : List (κ × β)) (k : κ) (d : β) :
    lookupK (insK m k d) k = some ((lookupK m k).getD d) := by
  induction m with
  | nil => simp [insK, lookupK]
  | cons p t ih =>
    obtain ⟨k0, v⟩ := p
    by_cases h : k0 = k <;> simp [insK, lookupK, h, ih]

theorem lookupK_insK_of_ne [DecidableEq κ] (m : List (κ × β)) {k q : κ} (d : β)
    (h : q ≠ k) : lookupK (insK m k d) q = lookupK m q := by
  induction m with
  | nil => simp [insK, lookupK, Ne.symm h]
  | cons p t ih =>
    obtain ⟨k0, v⟩ := p
    by_cases h0 : k0 = k <;> by_cases h1 : k0 = q <;>
      simp_all [insK, lookupK]

theorem getK_setK_self [DecidableEq κ] (m : List (κ × β)) (k : κ) (b d : β) :
    getK (setK m k b) k d = b := by
  simp [getK, lookupK_setK_self]

theorem getK_setK_of_ne [DecidableEq κ] (m : List (κ × β)) {k q : κ} (b d : β)
    (h : q ≠ k) : getK (setK m k b) q d = getK m q d := by
  simp [getK, lookupK_setK_of_ne m b h]

theorem getK_insK_self [DecidableEq κ] (m : List (κ × β)) (k : κ) (c d : β) :
    getK (insK m k c) k d = getK m k c := by
  simp [getK, lookupK_insK_self]

theorem getK_insK_of_ne [DecidableEq κ] (m : List (κ × β)) {k q : κ} (c d : β)
    (h : q ≠ k) : getK (insK m k c) q d = getK m q d := by
  simp [getK, lookupK_insK_of_ne m c h]

theorem lookupK_mem [DecidableEq κ] {m : List (κ × β)} {k : κ} {v : β}
    (h : lookupK m k = some v) : (k, v) ∈ m := by
  induction m with
  | nil => simp [lookupK] at h
  | cons p t ih =>
    obtain ⟨k0, v0⟩ := p
    by_cases h0 : k0 = k
    · subst h0
      simp [lookupK] at h
      subst h
      exact List.mem_cons_self _ _
    · simp [lookupK, h0] at h
      exact List.mem_cons_of_mem _ (ih h)

theorem lookupK_of_not_mem_keys [DecidableEq κ] {m : List (κ × β)} {k : κ}
    (h : k ∉ m.map Prod.fst) : lookupK m k = none := by
  induction m with
  | nil => rfl
  | cons p t ih =>
    simp only [List.map_cons, List.mem_cons, not_or] at h
    simp [lookupK, Ne.symm h.1, ih h.2]

theorem lookupK_of_mem_nodup [DecidableEq κ] {m : List (κ × β)} {p : κ × β}
    (hm : p ∈ m) (hn : (m.map Prod.fst).Nodup) : lookupK m p.1 = some p.2 := by
  induction m with
  | nil => simp at hm
  | cons q t ih =>
    obtain ⟨k0, v0⟩ := q
    simp only [List.map_cons, List.nodup_cons] at hn
    rcases List.mem_cons.mp hm with h | h
    · subst h
      simp [lookupK]
    · have hne : k0 ≠ p.1 := by
        intro hk
        exact hn.1 (hk ▸ List.mem_map_of_mem Prod.fst h)
      simp [lookupK, hne, ih h hn.2]

theorem readQ_assign_self (pm : PMap σ α) (t : σ) (a : α) (q : ℚ) :
    readQ (setK pm t (setK (getK pm t []) a q)) t a = q := by
  unfold readQ
  rw [getK_setK_self, getK_setK_self]

theorem readQ_assign_of_ne (pm : PMap σ α) (t : σ) (a : α) (q : ℚ) {k : σ}
    {b : α} (h : ¬(k = t ∧ b = a)) :
    readQ (setK pm t (setK (getK pm t []) a q)) k b = readQ pm k b := by
  unfold readQ
  by_cases hk : k = t
  · subst hk
    have hb : b ≠ a := fun hb => h ⟨rfl, hb⟩
    rw [getK_setK_self, getK_setK_of_ne _ _ _ hb]
  · rw [getK_setK_of_ne _ _ _ hk]

theorem readQ_update_self (pm : PMap σ α) (s : St σ) (a : α) (q : ℚ) :
    readQ (policy.update pm s a q) s.trait a = q :=
  readQ_assign_self pm s.trait a q

theorem readQ_update_of_ne (pm : PMap σ α) (s : St σ) (a : α) (q : ℚ)
    {k : σ} {b : α} (h : ¬(k = s.trait ∧ b = a)) :
    readQ (policy.update pm s a q) k b = readQ pm k b :=
  readQ_assign_of_ne pm s.trait a q h

theorem readQ_insK_empty (pm : PMap σ α) (t k : σ) (b : α) :
    readQ (insK pm t []) k b = readQ pm k b := by
  unfold readQ
  by_cases hk : k = t
  · subst hk
    rw [getK_insK_self]
  · rw [getK_insK_of_ne _ _ _ hk]

theorem readQ_value_snd (pm : PMap σ α) (s : St σ) (a : α) {k : σ} {b : α}
    (h : ¬(k = s.trait ∧ b = a)) :
    readQ ((policy.value pm s a).2) k b = readQ pm k b := by
  unfold policy.value readQ
  by_cases hk : k = s.trait
  · subst hk
    have hb : b ≠ a := fun hb => h ⟨rfl, hb⟩
    rw [getK_setK_self, getK_insK_of_ne _ _ _ hb]
  · rw [getK_setK_of_ne _ _ _ hk, getK_insK_of_ne _ _ _ hk]

theorem readQ_best_value_snd (pm : PMap σ α) (s : St σ) (k : σ) (b : α) :
    readQ ((policy.best_value pm s).2) k b = readQ pm k b :=
  readQ_insK_empty pm s.trait k b

theorem readQ_det_stepAt (ql : q_learning) (ep : List (Lnk σ α)) (i : ℕ)
    (pm : PMap σ α) {k : σ} {b : α}
    (h : ∀ l ∈ ep, ¬(k = l.state.trait ∧ b = l.action)) :
    readQ (q_learning.stepAt ql ep i pm) k b = readQ pm k b := by
  unfold q_learning.stepAt
  cases hgi : ep.get? i with
  | none => simp
  | some step =>
    have hs : step ∈ ep := List.get?_mem hgi
    cases hgj : ep.get? (i + 1) with
    | none =>
      simp only
      exact readQ_update_of_ne _ _ _ _ (h step hs)
    | some next =>
      simp only
      rw [readQ_update_of_ne _ _ _ _ (h step hs), readQ_best_value_snd,
        readQ_value_snd _ _ _ (h step hs)]

theorem readQ_det_foldl (ql : q_learning) (ep : List (Lnk σ α)) {k : σ}
    {b : α} (h : ∀ l ∈ ep, ¬(k = l.state.trait ∧ b = l.action)) :
    ∀ (idxs : List ℕ) (pm : PMap σ α),
      readQ (idxs.foldl (fun acc i => q_learning.stepAt ql ep i acc) pm) k b
        = readQ pm k b := by
  intro idxs
  induction idxs with
  | nil => intro pm; rfl
  | cons i t ih =>
    intro pm
    rw [List.foldl_cons, ih, readQ_det_stepAt ql ep i pm h]

theorem readQ_prob_stepAt (g : ℚ) (ep : List (Lnk σ α)) (i : ℕ)
    (st : PMap σ α × MMap σ α) {k : σ} {b : α}
    (h : ∀ l ∈ ep, ¬(k = l.state.trait ∧ b = l.action)) :
    readQ (q_probabilistic.stepAt g ep i st).1 k b = readQ st.1 k b := by
  unfold q_probabilistic.stepAt
  cases hgi : ep.get? i with
  | none => simp
  | some step =>
    have hs : step ∈ ep := List.get?_mem hgi
    cases hgj : ep.get? (i + 1) with
    | none =>
      simp only
      exact readQ_update_of_ne _ _ _ _ (h step hs)
    | some next =>
      simp only
      rw [readQ_update_of_ne _ _ _ _ (h step hs), readQ_best_value_snd]

theorem readQ_prob_foldl (g : ℚ) (ep : List (Lnk σ α)) {k : σ} {b : α}
    (h : ∀ l ∈ ep, ¬(k = l.state.trait ∧ b = l.action)) :
    ∀ (idxs : List ℕ) (st : PMap σ α × MMap σ α),
      readQ ((idxs.foldl (fun acc i => q_probabilistic.stepAt g ep i acc) st).1) k b
        = readQ st.1 k b := by
  intro idxs
  induction idxs with
  | nil => intro st; rfl
  | cons i t ih =>
    intro st
    rw [List.foldl_cons, ih, readQ_prob_stepAt g ep i st h]

theorem runSteps_succ (ql : q_learning) (ep : List (Lnk σ α)) (i : ℕ)
    (pm : PMap σ α) :
    q_learning.runSteps ql ep (i + 1) pm
      = q_learning.stepAt ql ep i (q_learning.runSteps ql ep i pm) := by
  unfold q_learning.runSteps
  rw [List.range_succ, List.foldl_append, List.foldl_cons, List.foldl_nil]

theorem foldlMax_mem (x : α × ℚ) (t : List (α × ℚ)) :
    t.foldl (fun acc y => if acc.2 < y.2 then y else acc) x ∈ x :: t := by
  induction t generalizing x with
  | nil => simp
  | cons y t ih =>
    rw [List.foldl_cons]
    rcases List.mem_cons.mp (ih (if x.2 < y.2 then y else x)) with h1 | h1
    · rw [h1]
      by_cases hxy : x.2 < y.2 <;> simp [hxy]
    · exact List.mem_cons_of_mem _ (List.mem_cons_of_mem _ h1)

theorem foldlMax_ge (x : α × ℚ) (t : List (α × ℚ)) :
    ∀ p ∈ x :: t,
      p.2 ≤ (t.foldl (fun acc y => if acc.2 < y.2 then y else acc) x).2 := by
  induction t generalizing x with
  | nil =>
    intro p hp
    rw [List.mem_singleton.mp hp]
    exact le_refl _
  | cons y t ih =>
    intro p hp
    rw [List.foldl_cons]
    have hx : x.2 ≤ (if x.2 < y.2 then y else x).2 := by
      by_cases h : x.2 < y.2 <;> simp [h]
      exact le_of_lt h
    have hy : y.2 ≤ (if x.2 < y.2 then y else x).2 := by
      by_cases h : x.2 < y.2 <;> simp [h]
      exact le_of_not_lt h
    rcases List.mem_cons.mp hp with h1 | h1
    · subst h1
      exact le_trans hx (ih _ _ (List.mem_cons_self _ _))
    · rcases List.mem_cons.mp h1 with h2 | h2
      · subst h2
        exact le_trans hy (ih _ _ (List.mem_cons_self _ _))
      · exact ih _ p (List.mem_cons_of_mem _ h2)

theorem maxElem_spec {l : AMap α} (h : l ≠ []) :
    ∃ p, policy.maxElem l = some p ∧ p ∈ l ∧ ∀ q ∈ l, q.2 ≤ p.2 := by
  cases l with
  | nil => exact absurd rfl h
  | cons x t =>
    exact ⟨_, rfl, foldlMax_mem x t, foldlMax_ge x t⟩

theorem merge_cons (pm : PMap σ α) (e : σ × AMap α) (t : PMap σ α) :
    policy.merge pm (e :: t)
      = policy.merge
          (e.2.foldl
            (fun acc2 av => setK acc2 e.1 (setK (getK acc2 e.1 []) av.1 av.2)) pm)
          t := rfl

theorem readQ_innerFold_of_ne (inner : AMap α) (t : σ) (acc : PMap σ α)
    {k : σ} {b : α} (hk : k ≠ t) :
    readQ (inner.foldl
        (fun acc2 av => setK acc2 t (setK (getK acc2 t []) av.1 av.2)) acc) k b
      = readQ acc k b := by
  induction inner generalizing acc with
  | nil => rfl
  | cons av rest ih =>
    rw [List.foldl_cons, ih]
    exact readQ_assign_of_ne _ _ _ _ (fun hc => hk hc.1)

theorem readQ_innerFold_absent (inner : AMap α) (t : σ) (acc : PMap σ α)
    {b : α} (hb : lookupK inner b = none) :
    readQ (inner.foldl
        (fun acc2 av => setK acc2 t (setK (getK acc2 t []) av.1 av.2)) acc) t b
      = readQ acc t b := by
  induction inner generalizing acc with
  | nil => rfl
  | cons av rest ih =>
    obtain ⟨a0, v0⟩ := av
    have h0 : a0 ≠ b := by
      intro h0
      simp [lookupK, h0] at hb
    have hrest : lookupK rest b = none := by simpa [lookupK, h0] using hb
    rw [List.foldl_cons, ih _ hrest]
    exact readQ_assign_of_ne _ _ _ _ (fun hc => h0 hc.2.symm)

theorem readQ_innerFold_lookup (inner : AMap α) (t : σ) (acc : PMap σ α)
    {b : α} {v : ℚ} (hn : (inner.map Prod.fst).Nodup)
    (hv : lookupK inner b = some v) :
    readQ (inner.foldl
        (fun acc2 av => setK acc2 t (setK (getK acc2 t []) av.1 av.2)) acc) t b
      = v := by
  induction inner generalizing acc with
  | nil => simp [lookupK] at hv
  | cons av rest ih =>
    obtain ⟨a0, v0⟩ := av
    simp only [List.map_cons, List.nodup_cons] at hn
    by_cases h0 : a0 = b
    · subst h0
      have hv0 : v0 = v := by simpa [lookupK] using hv
      have hrest : lookupK rest a0 = none := lookupK_of_not_mem_keys hn.1
      rw [List.foldl_cons, readQ_innerFold_absent rest t _ hrest, ← hv0]
      exact readQ_assign_self _ _ _ _
    · have hv2 : lookupK rest b = some v := by simpa [lookupK, h0] using hv
      rw [List.foldl_cons, ih _ hn.2 hv2]

theorem readQ_merge_not_key (R : PMap σ α) (pm : PMap σ α) {k : σ} {b : α}
    (hk : k ∉ R.map Prod.fst) :
    readQ (policy.merge pm R) k b = readQ pm k b := by
  induction R generalizing pm with
  | nil => rfl
  | cons e rest ih =>
    simp only [List.map_cons, List.mem_cons, not_or] at hk
    rw [merge_cons, ih _ hk.2, readQ_innerFold_of_ne _ _ _ hk.1]

theorem readQ_merge_absent (R : PMap σ α) (pm : PMap σ α) {k : σ} {b : α}
    (hR : (R.map Prod.fst).Nodup)
    (hb : lookupK (getK R k []) b = none) :
    readQ (policy.merge pm R) k b = readQ pm k b := by
  induction R generalizing pm with
  | nil => rfl
  | cons e rest ih =>
    obtain ⟨k0, in0⟩ := e
    simp only [List.map_cons, List.nodup_cons] at hR
    by_cases hk : k = k0
    · subst hk
      have hin : getK ((k, in0) :: rest) k [] = in0 := by simp [getK, lookupK]
      rw [hin] at hb
      rw [merge_cons, readQ_merge_not_key rest _ hR.1,
        readQ_innerFold_absent _ _ _ hb]
    · have hg : getK ((k0, in0) :: rest) k [] = getK rest k [] := by
        simp [getK, lookupK, Ne.symm hk]
      rw [hg] at hb
      rw [merge_cons, ih _ hR.2 hb, readQ_innerFold_of_ne _ _ _ hk]

theorem readQ_merge_lookup (R : PMap σ α) (pm : PMap σ α) {k : σ} {b : α}
    {v : ℚ} (hR : (R.map Prod.fst).Nodup)
    (hin : ((getK R k []).map Prod.fst).Nodup)
    (hv : lookupK (getK R k []) b = some v) :
    readQ (policy.merge pm R) k b = v := by
  induction R generalizing pm with
  | nil => simp [getK, lookupK] at hv
  | cons e rest ih =>
    obtain ⟨k0, in0⟩ := e
    simp only [List.map_cons, List.nodup_cons] at hR
    by_cases hk : k = k0
    · subst hk
      have hg : getK ((k, in0) :: rest) k [] = in0 := by simp [getK, lookupK]
      rw [hg] at hin hv
      rw [merge_cons, readQ_merge_not_key rest _ hR.1,
        readQ_innerFold_lookup _ _ _ hin hv]
    · have hg : getK ((k0, in0) :: rest) k [] = getK rest k [] := by
        simp [getK, lookupK, Ne.symm hk]
      rw [hg] at hin hv
      rw [merge_cons, ih _ hR.2 hin hv]

/-- Claim C7: for a state with no recorded actions the three best queries
agree on the no-knowledge result and none faults: best_action yields
nullptr (none), best_value yields the NaN sentinel (none), and best yields
the pair (nullptr, NaN), modelled (none, none). -/
theorem best_queries_no_knowledge (pm : PMap σ α) (s : St σ)
    (h : getK pm s.trait [] = []) :
    (policy.best_value pm s).1 = none ∧ (policy.best_action pm s).1 = none ∧
      (policy.best pm s).1 = (none, none) := by
  refine ⟨?_, ?_, ?_⟩ <;>
    simp [policy.best_value, policy.best_action, policy.best, h, policy.maxElem]

/-- Witness for C7 at the empty store and the state with trait 0. -/
theorem best_queries_no_knowledge_w :
    getK ([] : PMap ℕ ℕ) (0 : ℕ) [] = [] ∧
      ((policy.best_value ([] : PMap ℕ ℕ) ⟨0, 0⟩).1 = none ∧
        (policy.best_action ([] : PMap ℕ ℕ) ⟨0, 0⟩).1 = none ∧
        (policy.best ([] : PMap ℕ ℕ) ⟨0, 0⟩).1 = (none, none)) :=
  ⟨rfl, best_queries_no_knowledge [] ⟨0, 0⟩ rfl⟩

/-- Claim C9: calling either learner with the empty episode is a no-op:
the policy store is returned unchanged and, for the probabilistic learner,
so is the transition-frequency memory.  (In this embedding every link
access of both learners carries an in-bounds index proof through
`List.get?`; the loops visit only indices below the episode length, so no
out-of-bounds access exists by construction.) -/
theorem empty_episode_noop (ql : q_learning) (g : ℚ) (pm : PMap σ α)
    (mem : MMap σ α) :
    q_learning.run ql [] pm = pm ∧
      q_probabilistic.run g [] pm mem = (pm, mem) :=
  ⟨rfl, rfl⟩

/-- Claim C5 (amended): reading value(s, a) for a never-updated pair does
return 0, but `operator[]` inserts the pair with value 0 as a side effect,
so a subsequent actions(s) exposes the ghost entry (a, 0). -/
theorem value_read_zero_and_ghost (pm : PMap σ α) (s : St σ) (a : α)
    (h : lookupK (getK pm s.trait []) a = none) :
    (policy.value pm s a).1 = 0
    ∧ lookupK ((policy.actions ((policy.value pm s a).2) s).1) a = some 0 := by
  constructor
  · show getK (getK pm s.trait []) a 0 = 0
    unfold getK at h ⊢
    rw [h]
    rfl
  · show lookupK
      (getK (setK (insK pm s.trait []) s.trait
        (insK (getK pm s.trait []) a 0)) s.trait []) a = some 0
    rw [getK_setK_self, lookupK_insK_self, h]
    rfl

/-- Witness for C5 (amended) at the empty store. -/
theorem value_read_zero_and_ghost_w :
    lookupK (getK ([] : PMap ℕ ℕ) (0 : ℕ) []) 0 = none
    ∧ ((policy.value ([] : PMap ℕ ℕ) ⟨0, 0⟩ 0).1 = 0
      ∧ lookupK ((policy.actions
          ((policy.value ([] : PMap ℕ ℕ) ⟨0, 0⟩ 0).2) ⟨0, 0⟩).1) 0 = some 0) :=
  ⟨rfl, value_read_zero_and_ghost [] ⟨0, 0⟩ 0 rfl⟩

/-- Claim C5 counterexample: after a plain value read of a never-updated
pair on the empty store, actions(s) is no longer what it was before the
read — the ghost entry (a, 0) has appeared. -/
theorem value_read_no_ghost_cex :
    (policy.actions ((policy.value ([] : PMap ℕ ℕ) ⟨0, 0⟩ 0).2) ⟨0, 0⟩).1
      ≠ (policy.actions ([] : PMap ℕ ℕ) ⟨0, 0⟩).1 := by decide

/-- Claim C4 (amended): a call of the deterministic learner does write the
terminal pair: the loop body at index n−1 takes the else branch of
q_value and stores the terminal state's reward for
(episode[n−1].state, episode[n−1].action). -/
theorem terminal_pair_set_to_reward (ql : q_learning) (ep : List (Lnk σ α))
    (pm : PMap σ α) (h : ep ≠ []) :
    (policy.value (q_learning.run ql ep pm)
        (ep.getLast h).state (ep.getLast h).action).1
      = (ep.getLast h).state.reward := by
  have hlen : 0 < ep.length := List.length_pos.mpr h
  have hx : ep.get? (ep.length - 1) = some (ep.getLast h) := by
    rw [List.getLast_eq_get]
    exact List.get?_eq_get _
  have hy : ep.get? (ep.length - 1 + 1) = none := by
    rw [Nat.sub_add_cancel hlen]
    exact List.get?_eq_none.mpr (le_refl _)
  have hrun : q_learning.run ql ep pm
      = q_learning.stepAt ql ep (ep.length - 1)
          (q_learning.runSteps ql ep (ep.length - 1) pm) := by
    unfold q_learning.run
    conv_lhs => rw [← Nat.sub_add_cancel hlen]
    exact runSteps_succ ql ep (ep.length - 1) pm
  rw [hrun]
  unfold q_learning.stepAt
  simp only [hx, hy]
  rw [value_fst, readQ_update_self]

/-- Witness for C4 (amended): the single-link episode with terminal reward
5 leaves the store holding 5 for the terminal pair. -/
theorem terminal_pair_set_to_reward_w :
    (([⟨⟨5, 0⟩, 0⟩] : List (Lnk ℕ ℕ)) ≠ [])
    ∧ (policy.value
        (q_learning.run ⟨9/10, 9/10⟩ ([⟨⟨5, 0⟩, 0⟩] : List (Lnk ℕ ℕ)) [])
        ⟨5, 0⟩ 0).1 = (5 : ℚ) :=
  ⟨List.cons_ne_nil _ _,
    terminal_pair_set_to_reward ⟨9/10, 9/10⟩ _ [] (List.cons_ne_nil _ _)⟩

/-- Claim C4 counterexample: on the single-link episode whose state has
reward 5, the value stored for the terminal pair after one deterministic
call differs from the value read before the call (0). -/
theorem terminal_pair_unchanged_cex :
    (policy.value
        (q_learning.run ⟨9/10, 9/10⟩ ([⟨⟨5, 0⟩, 0⟩] : List (Lnk ℕ ℕ)) [])
        ⟨5, 0⟩ 0).1
      ≠ (policy.value ([] : PMap ℕ ℕ) ⟨5, 0⟩ 0).1 := by
  norm_num [q_learning.run, q_learning.runSteps, q_learning.stepAt,
    policy.value, policy.update, policy.best_value, policy.maxElem,
    getK, setK, insK, lookupK, nanZero, List.range_succ]

/-- Claim C1 (amended): during one call of the deterministic learner, the
step for an index i with a successor (0 ≤ i ≤ n−2) replaces the stored
value of (episode[i].state, episode[i].action) with
q_old + α*(r + γ*q_next − q_old), where q_old is the value stored for the
pair at the moment of the step (0 when absent), r is the reward carried by
episode[i].state — the source state of the step, not the destination —
and q_next is best_value(episode[i+1].state) at that moment with the NaN
sentinel replaced by 0. -/
theorem det_step_value_uses_current_state_reward (ql : q_learning)
    (ep : List (Lnk σ α)) (pm : PMap σ α) (i : ℕ) (x y : Lnk σ α)
    (hx : ep.get? i = some x) (hy : ep.get? (i + 1) = some y) :
    (policy.value (q_learning.runSteps ql ep (i + 1) pm) x.state x.action).1
      = (policy.value (q_learning.runSteps ql ep i pm) x.state x.action).1
        + ql.alpha * (x.state.reward
            + (ql.gamma * nanZero (policy.best_value
                ((policy.value (q_learning.runSteps ql ep i pm)
                    x.state x.action).2) y.state).1)
            - (policy.value (q_learning.runSteps ql ep i pm)
                x.state x.action).1) := by
  rw [runSteps_succ]
  unfold q_learning.stepAt
  simp only [hx, hy]
  rw [value_fst, readQ_update_self]

/-- Witness for C1 (amended): the 2-link episode of the counterexample,
step 0, starting from the empty store. -/
theorem det_step_value_uses_current_state_reward_w :
    (([⟨⟨0, 1⟩, 1⟩, ⟨⟨1, 2⟩, 2⟩] : List (Lnk ℕ ℕ)).get? 0 = some ⟨⟨0, 1⟩, 1⟩)
    ∧ (([⟨⟨0, 1⟩, 1⟩, ⟨⟨1, 2⟩, 2⟩] : List (Lnk ℕ ℕ)).get? 1 = some ⟨⟨1, 2⟩, 2⟩)
    ∧ ((policy.value (q_learning.runSteps ⟨1/2, 0⟩
          [⟨⟨0, 1⟩, 1⟩, ⟨⟨1, 2⟩, 2⟩] 1 ([] : PMap ℕ ℕ)) ⟨0, 1⟩ 1).1
        = (policy.value (q_learning.runSteps ⟨1/2, 0⟩
              [⟨⟨0, 1⟩, 1⟩, ⟨⟨1, 2⟩, 2⟩] 0 ([] : PMap ℕ ℕ)) ⟨0, 1⟩ 1).1
          + (1/2) * ((⟨0, 1⟩ : St ℕ).reward
              + ((0 : ℚ) * nanZero (policy.best_value
                  ((policy.value (q_learning.runSteps ⟨1/2, 0⟩
                      [⟨⟨0, 1⟩, 1⟩, ⟨⟨1, 2⟩, 2⟩] 0 ([] : PMap ℕ ℕ))
                      ⟨0, 1⟩ 1).2) ⟨1, 2⟩).1)
              - (policy.value (q_learning.runSteps ⟨1/2, 0⟩
                  [⟨⟨0, 1⟩, 1⟩, ⟨⟨1, 2⟩, 2⟩] 0 ([] : PMap ℕ ℕ)) ⟨0, 1⟩ 1).1)) :=
  ⟨rfl, rfl, det_step_value_uses_current_state_reward ⟨1/2, 0⟩
    [⟨⟨0, 1⟩, 1⟩, ⟨⟨1, 2⟩, 2⟩] [] 0 ⟨⟨0, 1⟩, 1⟩ ⟨⟨1, 2⟩, 2⟩ rfl rfl⟩

/-- Claim C1 counterexample: on the 2-link episode whose destination state
carries reward 1 (and whose source state carries reward 0), with α = 1/2
and γ = 0, one call stores 0 for the first pair, while the claimed formula
with r read from episode[1].state gives 1/2. -/
theorem det_update_reward_from_successor_cex :
    (policy.value
        (q_learning.run ⟨1/2, 0⟩
          ([⟨⟨0, 1⟩, 1⟩, ⟨⟨1, 2⟩, 2⟩] : List (Lnk ℕ ℕ)) []) ⟨0, 1⟩ 1).1
      ≠ (policy.value ([] : PMap ℕ ℕ) ⟨0, 1⟩ 1).1
        + (1/2) * ((⟨1, 2⟩ : St ℕ).reward
            + ((0 : ℚ) * nanZero (policy.best_value ([] : PMap ℕ ℕ) ⟨1, 2⟩).1)
            - (policy.value ([] : PMap ℕ ℕ) ⟨0, 1⟩ 1).1) := by
  norm_num [q_learning.run, q_learning.runSteps, q_learning.stepAt,
    policy.value, policy.update, policy.best_value, policy.maxElem,
    getK, setK, insK, lookupK, nanZero, List.range_succ]

/-- Claim C8: for a state with at least one recorded action, best_value is
the value stored under the action best_action returns, and it dominates
the stored value of every recorded action of that state. -/
theorem best_query_consistency (pm : PMap σ α) (s : St σ)
    (h1 : getK pm s.trait [] ≠ [])
    (h2 : ((getK pm s.trait []).map Prod.fst).Nodup) :
    ∃ a v, (policy.best_action pm s).1 = some a
      ∧ (policy.best_value pm s).1 = some v
      ∧ (policy.value pm s a).1 = v
      ∧ ∀ b q, lookupK (getK pm s.trait []) b = some q → q ≤ v := by
  obtain ⟨p, hmax, hmem, hge⟩ := maxElem_spec h1
  refine ⟨p.1, p.2, ?_, ?_, ?_, ?_⟩
  · show (policy.maxElem (getK pm s.trait [])).map Prod.fst = some p.1
    rw [hmax]
    rfl
  · show (policy.maxElem (getK pm s.trait [])).map Prod.snd = some p.2
    rw [hmax]
    rfl
  · show (lookupK (getK pm s.trait []) p.1).getD 0 = p.2
    rw [lookupK_of_mem_nodup hmem h2]
    rfl
  · intro b q hq
    exact hge (b, q) (lookupK_mem hq)

/-- Witness for C8 at a store holding two actions for the state. -/
theorem best_query_consistency_w :
    (getK ([(0, [(1, 3), (2, 5)])] : PMap ℕ ℕ) (0 : ℕ) [] ≠ [])
    ∧ ((getK ([(0, [(1, 3), (2, 5)])] : PMap ℕ ℕ) (0 : ℕ) []).map
        Prod.fst).Nodup
    ∧ (∃ a v,
        (policy.best_action ([(0, [(1, 3), (2, 5)])] : PMap ℕ ℕ) ⟨0, 0⟩).1
          = some a
        ∧ (policy.best_value ([(0, [(1, 3), (2, 5)])] : PMap ℕ ℕ) ⟨0, 0⟩).1
            = some v
        ∧ (policy.value ([(0, [(1, 3), (2, 5)])] : PMap ℕ ℕ) ⟨0, 0⟩ a).1 = v
        ∧ ∀ b q,
            lookupK (getK ([(0, [(1, 3), (2, 5)])] : PMap ℕ ℕ) (0 : ℕ) []) b
              = some q → q ≤ v) :=
  ⟨by decide, by decide,
    best_query_consistency [(0, [(1, 3), (2, 5)])] ⟨0, 0⟩ (by decide)
      (by decide)⟩

/-- Claim C10: learners write only the pairs that occur as links of the
episode: for a (state, action) pair occurring in none of the links, the
result of value(s, a) after a call of either learner equals the result
before it. -/
theorem learners_frame_property (ql : q_learning) (g : ℚ)
    (ep : List (Lnk σ α)) (pm : PMap σ α) (mem : MMap σ α) (s : St σ) (a : α)
    (h : ∀ l ∈ ep, ¬(s.trait = l.state.trait ∧ a = l.action)) :
    (policy.value (q_learning.run ql ep pm) s a).1 = (policy.value pm s a).1
    ∧ (policy.value (q_probabilistic.run g ep pm mem).1 s a).1
        = (policy.value pm s a).1 := by
  constructor
  · rw [value_fst, value_fst]
    exact readQ_det_foldl ql ep h (List.range ep.length) pm
  · rw [value_fst, value_fst]
    exact readQ_prob_foldl g ep h (List.range ep.length)
      (pm, q_probabilistic.freqRun ep mem)

/-- Witness for C10: the pair (trait 7, action 9) occurs in no link of the
2-link episode, and its stored value 4 survives both learners. -/
theorem learners_frame_property_w :
    (∀ l ∈ ([⟨⟨0, 1⟩, 1⟩, ⟨⟨1, 2⟩, 2⟩] : List (Lnk ℕ ℕ)),
        ¬((⟨0, 7⟩ : St ℕ).trait = l.state.trait ∧ (9 : ℕ) = l.action))
    ∧ ((policy.value
          (q_learning.run ⟨9/10, 9/10⟩ [⟨⟨0, 1⟩, 1⟩, ⟨⟨1, 2⟩, 2⟩]
            ([(7, [(9, 4)])] : PMap ℕ ℕ)) ⟨0, 7⟩ 9).1
        = (policy.value ([(7, [(9, 4)])] : PMap ℕ ℕ) ⟨0, 7⟩ 9).1
      ∧ (policy.value
          (q_probabilistic.run (9/10) [⟨⟨0, 1⟩, 1⟩, ⟨⟨1, 2⟩, 2⟩]
            ([(7, [(9, 4)])] : PMap ℕ ℕ) []).1 ⟨0, 7⟩ 9).1
        = (policy.value ([(7, [(9, 4)])] : PMap ℕ ℕ) ⟨0, 7⟩ 9).1) :=
  ⟨by decide,
    learners_frame_property ⟨9/10, 9/10⟩ (9/10) [⟨⟨0, 1⟩, 1⟩, ⟨⟨1, 2⟩, 2⟩]
      [(7, [(9, 4)])] [] ⟨0, 7⟩ 9 (by decide)⟩

/-- Claim C6: merge (policy::operator+=, modelled from its
USING_BOOST_SERIALIZATION branch — the branch that type-checks): for a
pair present in arg, the merged store holds arg's value (arg wins on
conflict); for a pair absent from arg, the merged store reads as before
the merge, so entries only in this store are preserved. -/
theorem merge_overlay_semantics (L R : PMap σ α) (s : St σ) (a : α)
    (hR : (R.map Prod.fst).Nodup) :
    (∀ v, ((getK R s.trait []).map Prod.fst).Nodup →
        lookupK (getK R s.trait []) a = some v →
        (policy.value (policy.merge L R) s a).1 = v)
    ∧ (lookupK (getK R s.trait []) a = none →
        (policy.value (policy.merge L R) s a).1 = (policy.value L s a).1) := by
  constructor
  · intro v hin hv
    rw [value_fst]
    exact readQ_merge_lookup R L hR hin hv
  · intro hb
    rw [value_fst, value_fst]
    exact readQ_merge_absent R L hR hb

/-- Witness for C6: L holds (0, 1) ↦ 10 and (0, 3) ↦ 30, R holds
(0, 1) ↦ 20; after the merge, R's 20 wins for action 1 and L's entry for
action 3 is preserved. -/
theorem merge_overlay_semantics_w :
    ((([(0, [(1, 20)])] : PMap ℕ ℕ).map Prod.fst).Nodup)
    ∧ ((∀ v,
          ((getK ([(0, [(1, 20)])] : PMap ℕ ℕ) ((⟨0, 0⟩ : St ℕ)).trait []).map
              Prod.fst).Nodup →
          lookupK (getK ([(0, [(1, 20)])] : PMap ℕ ℕ)
              ((⟨0, 0⟩ : St ℕ)).trait []) 1 = some v →
          (policy.value
              (policy.merge ([(0, [(1, 10), (3, 30)])] : PMap ℕ ℕ)
                [(0, [(1, 20)])]) ⟨0, 0⟩ 1).1 = v)
      ∧ (lookupK (getK ([(0, [(1, 20)])] : PMap ℕ ℕ)
            ((⟨0, 0⟩ : St ℕ)).trait []) 1 = none →
          (policy.value
              (policy.merge ([(0, [(1, 10), (3, 30)])] : PMap ℕ ℕ)
                [(0, [(1, 20)])]) ⟨0, 0⟩ 1).1
            = (policy.value ([(0, [(1, 10), (3, 30)])] : PMap ℕ ℕ)
                ⟨0, 0⟩ 1).1)) :=
  ⟨by decide,
    merge_overlay_semantics [(0, [(1, 10), (3, 30)])] [(0, [(1, 20)])]
      ⟨0, 0⟩ 1 (by decide)⟩

/-- Claim C2: the frequency write of q_probabilistic::operator() is
`=+ 1` — assignment of +1 — not `+= 1`: after one call the count of the
observed transition is 1, and after a second call with the same episode on
the same learner state it is still 1, not the accumulated 2. -/
theorem prob_freq_count_stays_one :
    getK (getK (getK
        (q_probabilistic.run (9/10) [⟨⟨0, 1⟩, 1⟩, ⟨⟨1, 2⟩, 2⟩]
          (q_probabilistic.run (9/10) [⟨⟨0, 1⟩, 1⟩, ⟨⟨1, 2⟩, 2⟩]
            ([] : PMap ℕ ℕ) ([] : MMap ℕ ℕ)).1
          (q_probabilistic.run (9/10) [⟨⟨0, 1⟩, 1⟩, ⟨⟨1, 2⟩, 2⟩]
            ([] : PMap ℕ ℕ) ([] : MMap ℕ ℕ)).2).2
        (1 : ℕ) []) (1 : ℕ) []) (2 : ℕ) 0 = 1
    ∧ getK (getK (getK
        (q_probabilistic.run (9/10) [⟨⟨0, 1⟩, 1⟩, ⟨⟨1, 2⟩, 2⟩]
          ([] : PMap ℕ ℕ) ([] : MMap ℕ ℕ)).2
        (1 : ℕ) []) (1 : ℕ) []) (2 : ℕ) 0 = 1 := by
  constructor <;>
    norm_num [q_probabilistic.run, q_probabilistic.freqRun,
      q_probabilistic.freqAt, q_probabilistic.stepAt, policy.value,
      policy.update, policy.best_value, policy.maxElem, getK, setK, insK,
      lookupK, nanZero, List.range_succ]

/-- Claim C3: `prob` is computed as
`__memory__[s][a][s_next] / __memory__[s][a].size()` — a `std::size_t`
division by the number of distinct recorded destinations, not an exact
ratio of the count to the sum of counts.  With two distinct destinations
recorded for (state 1, action 1), each with count 1, the integer division
1 / 2 yields 0 and the learner stores 0 for the pair, although the reward
of the destination state is 1 (the claimed value would be 1/2). -/
theorem prob_integer_division_value_zero :
    (policy.value
        (q_probabilistic.run 0 [⟨⟨1, 1⟩, 1⟩, ⟨⟨1, 2⟩, 2⟩]
          (q_probabilistic.run 0 [⟨⟨1, 1⟩, 1⟩, ⟨⟨1, 3⟩, 3⟩]
            (q_probabilistic.run 0 [⟨⟨1, 1⟩, 1⟩, ⟨⟨1, 2⟩, 2⟩]
              ([] : PMap ℕ ℕ) ([] : MMap ℕ ℕ)).1
            (q_probabilistic.run 0 [⟨⟨1, 1⟩, 1⟩, ⟨⟨1, 2⟩, 2⟩]
              ([] : PMap ℕ ℕ) ([] : MMap ℕ ℕ)).2).1
          (q_probabilistic.run 0 [⟨⟨1, 1⟩, 1⟩, ⟨⟨1, 3⟩, 3⟩]
            (q_probabilistic.run 0 [⟨⟨1, 1⟩, 1⟩, ⟨⟨1, 2⟩, 2⟩]
              ([] : PMap ℕ ℕ) ([] : MMap ℕ ℕ)).1
            (q_probabilistic.run 0 [⟨⟨1, 1⟩, 1⟩, ⟨⟨1, 2⟩, 2⟩]
              ([] : PMap ℕ ℕ) ([] : MMap ℕ ℕ)).2).2).1
        ⟨1, 1⟩ 1).1 = 0
    ∧ getK (getK (getK
        (q_probabilistic.run 0 [⟨⟨1, 1⟩, 1⟩, ⟨⟨1, 2⟩, 2⟩]
          (q_probabilistic.run 0 [⟨⟨1, 1⟩, 1⟩, ⟨⟨1, 3⟩, 3⟩]
            (q_probabilistic.run 0 [⟨⟨1, 1⟩, 1⟩, ⟨⟨1, 2⟩, 2⟩]
              ([] : PMap ℕ ℕ) ([] : MMap ℕ ℕ)).1
            (q_probabilistic.run 0 [⟨⟨1, 1⟩, 1⟩, ⟨⟨1, 2⟩, 2⟩]
              ([] : PMap ℕ ℕ) ([] : MMap ℕ ℕ)).2).1
          (q_probabilistic.run 0 [⟨⟨1, 1⟩, 1⟩, ⟨⟨1, 3⟩, 3⟩]
            (q_probabilistic.run 0 [⟨⟨1, 1⟩, 1⟩, ⟨⟨1, 2⟩, 2⟩]
              ([] : PMap ℕ ℕ) ([] : MMap ℕ ℕ)).1
            (q_probabilistic.run 0 [⟨⟨1, 1⟩, 1⟩, ⟨⟨1, 2⟩, 2⟩]
              ([] : PMap ℕ ℕ) ([] : MMap ℕ ℕ)).2).2).2
        (1 : ℕ) []) (1 : ℕ) []) (2 : ℕ) 0 = 1
    ∧ (getK (getK
        (q_probabilistic.run 0 [⟨⟨1, 1⟩, 1⟩, ⟨⟨1, 2⟩, 2⟩]
          (q_probabilistic.run 0 [⟨⟨1, 1⟩, 1⟩, ⟨⟨1, 3⟩, 3⟩]
            (q_probabilistic.run 0 [⟨⟨1, 1⟩, 1⟩, ⟨⟨1, 2⟩, 2⟩]
              ([] : PMap ℕ ℕ) ([] : MMap ℕ ℕ)).1
            (q_probabilistic.run 0 [⟨⟨1, 1⟩, 1⟩, ⟨⟨1, 2⟩, 2⟩]
              ([] : PMap ℕ ℕ) ([] : MMap ℕ ℕ)).2).1
          (q_probabilistic.run 0 [⟨⟨1, 1⟩, 1⟩, ⟨⟨1, 3⟩, 3⟩]
            (q_probabilistic.run 0 [⟨⟨1, 1⟩, 1⟩, ⟨⟨1, 2⟩, 2⟩]
              ([] : PMap ℕ ℕ) ([] : MMap ℕ ℕ)).1
            (q_probabilistic.run 0 [⟨⟨1, 1⟩, 1⟩, ⟨⟨1, 2⟩, 2⟩]
              ([] : PMap ℕ ℕ) ([] : MMap ℕ ℕ)).2).2).2
        (1 : ℕ) []) (1 : ℕ) []).length = 2 := by
  refine ⟨?_, ?_, ?_⟩ <;>
    norm_num [q_probabilistic.run, q_probabilistic.freqRun,
      q_probabilistic.freqAt, q_probabilistic.stepAt, policy.value,
      policy.update, policy.best_value, policy.maxElem, getK, setK, insK,
      lookupK, nanZero, List.range_succ]

end relearn
